import Mathlib

/-!
Verification of the OrchestRate orchestrator core
(src/utils/OrchestRate.tsx, `createOrchestrator`).

The embedding models the orchestrator as a pure state machine.  JavaScript is
single-threaded and cooperative, so external activity (further `orchestrate`,
`cancel` and `execute` calls) can only interleave at the `await` suspension
points inside `execute`'s item loop.  We therefore thread a schedule: a list of
command batches, one batch consumed per suspension point.  An effect function
is modelled by the outcome that awaiting `Promise.resolve(effect())` produces:
either a value or a rejection message.
-/

namespace OrchestRate

/-- Outcome of awaiting an effect: the resolved value, or the rejection /
throw message.  `err msg` also models the error descriptor recorded in the
result object by the catch branch (lines 160-170 of the source). -/
inductive RVal (α : Type) where
  | ok (v : α)
  | err (msg : String)
deriving DecidableEq

/-- `OrchestrationItem` (source lines 19-26).  `effect` is the outcome the
effect produces when invoked; `timeout` is accepted but never read by
`execute`, exactly as in the source. -/
structure Item (α : Type) where
  id : String
  effect : RVal α
  priority : Int
  preDelay : Nat
  postDelay : Nat
  timeout : Option Nat := none
deriving DecidableEq

/-- The `results` object built during a pass: id / value pairs in insertion
order, mirroring a JavaScript object used as a map. -/
abbrev ResultMap (α : Type) := List (String × RVal α)

/-- Property lookup on the result object. -/
def lookupId : ResultMap α → String → Option (RVal α)
  | [], _ => none
  | p :: rest, k => if p.1 = k then some p.2 else lookupId rest k

/-- JavaScript object assignment `results[id] = v`: an existing key is
updated in place, a new key is appended. -/
def setKey (m : ResultMap α) (k : String) (v : RVal α) : ResultMap α :=
  if m.any (fun p => decide (p.1 = k)) then
    m.map (fun p => if p.1 = k then (k, v) else p)
  else
    m ++ [(k, v)]

/-- Remove the first item with the given id, modelling
`queue.delete([...queue].find((i) => i.id === id))`; identity when no item
has the id (deleting an object not in the set is a no-op). -/
def deleteById : List (Item α) → String → List (Item α)
  | [], _ => []
  | x :: xs, i => if x.id = i then xs else deleteById xs i |>.cons x

/-- `orchestrate` acting on the queue (source lines 87-109): the first item
with the same id is deleted, then the fresh item is appended (a `Set` keeps
insertion order and `add` of a fresh object appends). -/
def orchestrateStore (s : List (Item α)) (it : Item α) : List (Item α) :=
  deleteById s it.id ++ [it]

/-- `cancel` (source lines 111-117): find the first item with the id and
delete it; no-op when absent. -/
def cancelStore (s : List (Item α)) (i : String) : List (Item α) :=
  match s.find? (fun x => decide (x.id = i)) with
  | some _ => deleteById s i
  | none => s

/-- The store never holds two items with the same id. -/
abbrev UniqueIds (s : List (Item α)) : Prop := (s.map (fun x => x.id)).Nodup

/-- Stable insertion for the descending-priority sort.  The inserted item is
original-earlier than everything already sorted, so it goes in front of the
first element whose priority does not exceed it. -/
def insertByPriority (x : Item α) : List (Item α) → List (Item α)
  | [] => [x]
  | y :: ys =>
    if y.priority ≤ x.priority then x :: y :: ys
    else y :: insertByPriority x ys

/-- `[...queue].sort((a, b) => b.priority - a.priority)` (source line 138).
`Array.prototype.sort` is stable, so its output is the unique permutation
that is descending in priority with equal priorities kept in original order;
a stable insertion sort computes exactly that. -/
def sortByPriorityDesc : List (Item α) → List (Item α)
  | [] => []
  | x :: xs => insertByPriority x (sortByPriorityDesc xs)

/-- Observable events of a run. -/
inductive Ev (α : Type) where
  | passStart (snapshot : List (Item α))
  | wait (ms : Nat)
  | invoke (id : String)
  | passEnd
  | deferred (r : Nat)
  | resolved (r : Nat) (m : ResultMap α)
deriving DecidableEq

/-- External commands against the orchestrator. -/
inductive Cmd (α : Type) where
  | reg (it : Item α)
  | cancel (i : String)
  | exec (r : Nat)
deriving DecidableEq

/-- Mutable state of `createOrchestrator` (source lines 79-81):
the item set, the `isPerforming` flag and the deferred continuation list
(each continuation identified by the requester it will resolve). -/
structure OState (α : Type) where
  store : List (Item α)
  isPerforming : Bool
  executionQueue : List Nat
deriving DecidableEq

def initState : OState α := ⟨[], false, []⟩

/-- A schedule: the batch of external commands that runs at each successive
suspension point of the execution chain. -/
abbrev Sched (α : Type) := List (List (Cmd α))

/-- One external command running while the orchestrator is suspended.  An
`execute` call finding `isPerforming` true pushes a continuation and leaves
everything else alone (source lines 120-129).  At a suspension point inside a
pass `isPerforming` is always true (see `runItems_isPerforming`), so the idle
arm of `exec` is unreachable here; an idle `execute` call is a top-level
command, modelled by `doExec` in `runScenario`. -/
def applyCmd (s : OState α) : Cmd α → OState α × List (Ev α)
  | .reg it => ({ s with store := orchestrateStore s.store it }, [])
  | .cancel i => ({ s with store := cancelStore s.store i }, [])
  | .exec r =>
    if s.isPerforming then
      ({ s with executionQueue := s.executionQueue ++ [r] }, [Ev.deferred r])
    else
      (s, [])

def applyCmds (s : OState α) : List (Cmd α) → OState α × List (Ev α)
  | [] => (s, [])
  | c :: cs =>
    let p := applyCmd s c
    let q := applyCmds p.1 cs
    (q.1, p.2 ++ q.2)

/-- Pop the batch of commands arriving at the next suspension point. -/
def takeBatch : Sched α → List (Cmd α) × Sched α
  | [] => ([], [])
  | b :: rest => (b, rest)

structure PtOut (α : Type) where
  state : OState α
  sched : Sched α
  trace : List (Ev α)

/-- One suspension point: the pending batch of external commands runs. -/
def stepPoint (s : OState α) (sched : Sched α) : PtOut α :=
  let t := takeBatch sched
  let p := applyCmds s t.1
  ⟨p.1, t.2, p.2⟩

/-- Source lines 151-154: `if (item.preDelay) await setTimeout(...)`.
A zero delay is falsy, so no suspension happens. -/
def preStep (s : OState α) (it : Item α) (sched : Sched α) : PtOut α :=
  if it.preDelay ≠ 0 then
    let p := stepPoint s sched
    ⟨p.state, p.sched, Ev.wait it.preDelay :: p.trace⟩
  else ⟨s, sched, []⟩

/-- Source line 157: the effect is invoked synchronously, then
`await Promise.resolve(...)` suspends once even for synchronous effects. -/
def effectStep (s : OState α) (it : Item α) (sched : Sched α) : PtOut α :=
  let p := stepPoint s sched
  ⟨p.state, p.sched, Ev.invoke it.id :: p.trace⟩

/-- Source lines 172-175: `if (item.postDelay) await setTimeout(...)`. -/
def postStep (s : OState α) (it : Item α) (sched : Sched α) : PtOut α :=
  if it.postDelay ≠ 0 then
    let p := stepPoint s sched
    ⟨p.state, p.sched, Ev.wait it.postDelay :: p.trace⟩
  else ⟨s, sched, []⟩

structure PassOut (α : Type) where
  state : OState α
  results : ResultMap α
  sched : Sched α
  trace : List (Ev α)

/-- The item loop of `execute` (source lines 147-179): for each item of the
snapshot, pre-delay, invoke the effect and record its outcome (the catch
branch records the error message, lines 156-170), post-delay. -/
def runItems : OState α → List (Item α) → ResultMap α → Sched α → PassOut α
  | s, [], results, sched => ⟨s, results, sched, []⟩
  | s, it :: rest, results, sched =>
    let a := preStep s it sched
    let b := effectStep a.state it a.sched
    let c := postStep b.state it b.sched
    let out := runItems c.state rest (setKey results it.id it.effect) c.sched
    ⟨out.state, out.results, out.sched, a.trace ++ b.trace ++ c.trace ++ out.trace⟩

structure ExecOut (α : Type) where
  state : OState α
  sched : Sched α
  trace : List (Ev α)
  ret : Option (ResultMap α)

/-- `execute` (source lines 119-193).  `ret = some m` means the call returned
(its caller's promise resolves with `m`); `ret = none` means the promise is
still pending (the deferred branch, or exhausted fuel — the fuel only bounds
the drain recursion of line 188 and is an artifact of totality).
Branches, in source order: if `isPerforming`, push a continuation (120-129);
if the queue is empty, return an empty object (131-134); otherwise mark busy,
snapshot and sort, run the loop, clear the queue, clear busy (136-182); if a
continuation is queued, shift one and return ITS result — `return
nextExecution()` on line 188 — so the caller receives the nested call's
result; otherwise return this pass's results (192). -/
def doExec : Nat → OState α → Nat → Sched α → ExecOut α
  | 0, s, _, sched => ⟨s, sched, [], none⟩
  | fuel + 1, s, r, sched =>
    if s.isPerforming then
      ⟨{ s with executionQueue := s.executionQueue ++ [r] }, sched,
        [Ev.deferred r], none⟩
    else if s.store.isEmpty then
      ⟨s, sched, [Ev.resolved r []], some []⟩
    else
      let order := sortByPriorityDesc s.store
      let p := runItems { s with isPerforming := true } order [] sched
      let s3 : OState α := { p.state with store := [], isPerforming := false }
      match s3.executionQueue with
      | [] =>
        ⟨s3, p.sched,
          Ev.passStart order :: p.trace ++ [Ev.passEnd, Ev.resolved r p.results],
          some p.results⟩
      | q :: qs =>
        let nested := doExec fuel { s3 with executionQueue := qs } q p.sched
        ⟨nested.state, nested.sched,
          (Ev.passStart order :: p.trace ++ [Ev.passEnd]) ++ nested.trace ++
            (match nested.ret with
             | some m => [Ev.resolved r m]
             | none => []),
          nested.ret⟩

/-- A whole session: top-level commands run while the orchestrator is idle;
the schedule supplies the batches that interleave at suspension points. -/
def runScenario : Nat → List (Cmd α) → Sched α → OState α → OState α × List (Ev α)
  | _, [], _, s => (s, [])
  | fuel, c :: cs, sched, s =>
    match c with
    | .reg it => runScenario fuel cs sched { s with store := orchestrateStore s.store it }
    | .cancel i => runScenario fuel cs sched { s with store := cancelStore s.store i }
    | .exec r =>
      let e := doExec fuel s r sched
      let out := runScenario fuel cs e.sched e.state
      (out.1, e.trace ++ out.2)

/-- The expected trace of one item per the spec, steps a-e of the pass
algorithm: a suspension of `preDelay` when positive, then the invocation,
then a suspension of `postDelay` when positive. -/
def itemTraceSpec (it : Item α) : List (Ev α) :=
  (if 0 < it.preDelay then [Ev.wait it.preDelay] else []) ++
    [Ev.invoke it.id] ++
    (if 0 < it.postDelay then [Ev.wait it.postDelay] else [])

/-- The expected trace of a pass: each item's block in run order, strictly
sequentially. -/
def passTraceSpec : List (Item α) → List (Ev α)
  | [] => []
  | it :: rest => itemTraceSpec it ++ passTraceSpec rest

/-- Ids of the effects invoked in a trace, in order. -/
def invokedIds (t : List (Ev α)) : List String :=
  t.filterMap fun e =>
    match e with
    | Ev.invoke i => some i
    | _ => none

/-- Requesters whose promise is resolved in a trace, in resolution order. -/
def resolvedReqs (t : List (Ev α)) : List Nat :=
  t.filterMap fun e =>
    match e with
    | Ev.resolved q _ => some q
    | _ => none

def isDeferredEv : Ev α → Bool
  | Ev.deferred _ => true
  | _ => false

/-- Pass-nesting discipline of a trace: `passStart` only outside a pass,
`passEnd`, `invoke` and `wait` only inside, promise resolutions only outside;
`none` flags a violation, otherwise the in-pass flag after the event. -/
def evStep (inPass : Bool) : Ev α → Option Bool
  | Ev.passStart _ => if inPass then none else some true
  | Ev.passEnd => if inPass then some false else none
  | Ev.invoke _ => if inPass then some true else none
  | Ev.wait _ => if inPass then some true else none
  | Ev.deferred _ => some inPass
  | Ev.resolved _ _ => if inPass then none else some false

/-- Scan a trace with `evStep`; `some b` is the final in-pass flag, `none`
means the discipline was violated somewhere. -/
def traceRun : Bool → List (Ev α) → Option Bool
  | b, [] => some b
  | b, e :: es =>
    match evStep b e with
    | none => none
    | some c => traceRun c es

/-! Concrete items used by the closed statements. -/

def itemX : Item Nat := ⟨"x", RVal.ok 7, 0, 0, 0, none⟩
def itemA1 : Item Nat := ⟨"a", RVal.ok 1, 1, 0, 0, none⟩
def itemB3 : Item Nat := ⟨"b", RVal.ok 2, 3, 0, 0, none⟩
def itemC2 : Item Nat := ⟨"c", RVal.ok 3, 2, 0, 0, none⟩
def itemXP1 : Item Nat := ⟨"x", RVal.ok 1, 1, 0, 0, none⟩
def itemXP5 : Item Nat := ⟨"x", RVal.ok 5, 5, 0, 0, none⟩
def itemTieA : Item Nat := ⟨"a", RVal.ok 1, 1, 0, 0, none⟩
def itemTieX : Item Nat := ⟨"x", RVal.ok 2, 1, 0, 0, none⟩
def itemTieB : Item Nat := ⟨"b", RVal.ok 3, 1, 0, 0, none⟩
def itemTieX2 : Item Nat := ⟨"x", RVal.ok 4, 1, 0, 0, none⟩
def itemE : Item Nat := ⟨"e", RVal.err "boom", 0, 0, 0, none⟩
def itemO : Item Nat := ⟨"o", RVal.ok 9, 0, 0, 0, none⟩

/-! Helper lemmas about the stable descending sort. -/

theorem insertByPriority_perm (x : Item α) (l : List (Item α)) :
    (insertByPriority x l).Perm (x :: l) := by
  induction l with
  | nil => exact List.Perm.refl _
  | cons y ys ih =>
    by_cases hc : y.priority ≤ x.priority
    · simp [insertByPriority, hc]
    · simp only [insertByPriority, hc, if_false, ite_false]
      exact (ih.cons y).trans (List.Perm.swap x y ys)

theorem sortByPriorityDesc_perm (l : List (Item α)) :
    (sortByPriorityDesc l).Perm l := by
  induction l with
  | nil => exact List.Perm.refl _
  | cons x xs ih =>
    exact (insertByPriority_perm x (sortByPriorityDesc xs)).trans (ih.cons x)

theorem insertByPriority_sorted (x : Item α) (l : List (Item α))
    (h : l.Pairwise (fun a b => b.priority ≤ a.priority)) :
    (insertByPriority x l).Pairwise (fun a b => b.priority ≤ a.priority) := by
  induction l with
  | nil => simp [insertByPriority]
  | cons y ys ih =>
    rw [List.pairwise_cons] at h
    by_cases hc : y.priority ≤ x.priority
    · simp only [insertByPriority, hc, if_true, ite_true]
      rw [List.pairwise_cons]
      refine ⟨?_, List.pairwise_cons.mpr h⟩
      intro b hb
      rcases List.mem_cons.mp hb with hb | hb
      · exact hb ▸ hc
      · exact le_trans (h.1 b hb) hc
    · simp only [insertByPriority, hc, if_false, ite_false]
      rw [List.pairwise_cons]
      refine ⟨?_, ih h.2⟩
      intro b hb
      rcases List.mem_cons.mp ((insertByPriority_perm x ys).mem_iff.mp hb) with hb | hb
      · exact hb ▸ le_of_not_le hc
      · exact h.1 b hb

theorem sortByPriorityDesc_sorted (l : List (Item α)) :
    (sortByPriorityDesc l).Pairwise (fun a b => b.priority ≤ a.priority) := by
  induction l with
  | nil => simp [sortByPriorityDesc]
  | cons x xs ih => exact insertByPriority_sorted x _ ih

theorem insertByPriority_filter (x : Item α) (p : Int) (l : List (Item α)) :
    (insertByPriority x l).filter (fun z => decide (z.priority = p)) =
      (x :: l).filter (fun z => decide (z.priority = p)) := by
  induction l with
  | nil => rfl
  | cons y ys ih =>
    by_cases hc : y.priority ≤ x.priority
    · simp only [insertByPriority, hc, if_true, ite_true]
    · have hxy : x.priority < y.priority := lt_of_not_le hc
      simp only [insertByPriority, hc, if_false, ite_false]
      rw [List.filter_cons, ih, List.filter_cons, List.filter_cons, List.filter_cons]
      by_cases hy : y.priority = p
      · have hx : ¬ x.priority = p := by omega
        simp [hy, hx]
      · by_cases hx : x.priority = p
        · simp [hy, hx]
        · simp [hy, hx]

theorem sortByPriorityDesc_filter (p : Int) (l : List (Item α)) :
    (sortByPriorityDesc l).filter (fun z => decide (z.priority = p)) =
      l.filter (fun z => decide (z.priority = p)) := by
  induction l with
  | nil => rfl
  | cons x xs ih =>
    rw [sortByPriorityDesc, insertByPriority_filter]
    simp [List.filter_cons, ih]

/-! Helper lemmas about the store operations. -/

theorem deleteById_sublist (s : List (Item α)) (i : String) :
    (deleteById s i).Sublist s := by
  induction s with
  | nil => simp [deleteById]
  | cons x xs ih =>
    by_cases hc : x.id = i
    · simp only [deleteById, hc, if_true, ite_true]
      exact List.sublist_cons_self x xs
    · simp only [deleteById, hc, if_false, ite_false]
      exact ih.cons₂ x

theorem uniqueIds_deleteById (s : List (Item α)) (i : String) (h : UniqueIds s) :
    UniqueIds (deleteById s i) :=
  List.Nodup.sublist ((deleteById_sublist s i).map (fun x => x.id)) h

theorem not_mem_ids_deleteById (s : List (Item α)) (i : String) (h : UniqueIds s) :
    i ∉ (deleteById s i).map (fun x => x.id) := by
  induction s with
  | nil => simp [deleteById]
  | cons x xs ih =>
    have h' : x.id ∉ xs.map (fun x => x.id) ∧ UniqueIds xs := by
      simpa [UniqueIds, List.nodup_cons] using h
    by_cases hc : x.id = i
    · simp only [deleteById, hc, if_true, ite_true]
      rw [← hc]
      exact h'.1
    · simp only [deleteById, hc, if_false, ite_false, List.map_cons, List.mem_cons]
      push_neg
      exact ⟨fun he => hc he.symm, ih h'.2⟩

theorem uniqueIds_orchestrateStore (s : List (Item α)) (it : Item α)
    (h : UniqueIds s) : UniqueIds (orchestrateStore s it) := by
  unfold orchestrateStore
  rw [UniqueIds, List.map_append, List.nodup_append]
  refine ⟨uniqueIds_deleteById s it.id h, List.nodup_singleton _, ?_⟩
  simp only [List.map_cons, List.map_nil, List.disjoint_singleton]
  exact not_mem_ids_deleteById s it.id h

theorem uniqueIds_cancelStore (s : List (Item α)) (i : String) (h : UniqueIds s) :
    UniqueIds (cancelStore s i) := by
  unfold cancelStore
  cases s.find? (fun x => decide (x.id = i)) with
  | none => exact h
  | some _ => exact uniqueIds_deleteById s i h

theorem filter_orchestrateStore_id (s : List (Item α)) (it : Item α)
    (h : UniqueIds s) :
    (orchestrateStore s it).filter (fun y => decide (y.id = it.id)) = [it] := by
  unfold orchestrateStore
  rw [List.filter_append]
  have h1 : (deleteById s it.id).filter (fun y => decide (y.id = it.id)) = [] := by
    rw [List.filter_eq_nil_iff]
    intro a ha hd
    exact not_mem_ids_deleteById s it.id h
      (List.mem_map.mpr ⟨a, ha, of_decide_eq_true hd⟩)
  rw [h1]
  simp

/-! Helper lemmas about the result object. -/

theorem setKey_fresh (m : ResultMap α) (k : String) (v : RVal α)
    (h : ∀ q ∈ m, q.1 ≠ k) : setKey m k v = m ++ [(k, v)] := by
  unfold setKey
  have ha : m.any (fun p => decide (p.1 = k)) = false := by
    rw [List.any_eq_false]
    intro q hq
    simp [h q hq]
  rw [ha]
  simp

theorem lookupId_append_self (m : ResultMap α) (k : String) (v : RVal α)
    (h : ∀ q ∈ m, q.1 ≠ k) : lookupId (m ++ [(k, v)]) k = some v := by
  induction m with
  | nil => simp [lookupId]
  | cons q rest ih =>
    have hq : q.1 ≠ k := h q (List.mem_cons_self q rest)
    simp only [List.cons_append, lookupId, hq, if_false, ite_false]
    exact ih (fun q' hq' => h q' (List.mem_cons_of_mem q hq'))

theorem lookupId_append_other (m : ResultMap α) (k kk : String) (v : RVal α)
    (h : kk ≠ k) : lookupId (m ++ [(k, v)]) kk = lookupId m kk := by
  induction m with
  | nil =>
    have hn : ¬ ((k, v).1 = kk) := fun he => h (Eq.symm he)
    simp [lookupId, hn]
  | cons q rest ih =>
    by_cases hq : q.1 = kk
    · simp [lookupId, hq]
    · simp only [List.cons_append, lookupId, hq, if_false, ite_false]
      exact ih

/-- The result object built by a pass over `items`, starting from `res`. -/
def buildResults (items : List (Item α)) (res : ResultMap α) : ResultMap α :=
  items.foldl (fun m it => setKey m it.id it.effect) res

theorem runItems_results (items : List (Item α)) :
    ∀ (s : OState α) (res : ResultMap α) (sched : Sched α),
      (runItems s items res sched).results = buildResults items res := by
  induction items with
  | nil => intro s res sched; rfl
  | cons it rest ih =>
    intro s res sched
    simp only [runItems]
    rw [ih]
    rfl

theorem buildResults_lookup_out (items : List (Item α)) :
    ∀ (res : ResultMap α) (k : String), k ∉ items.map (fun x => x.id) →
      lookupId (buildResults items res) k = lookupId res k := by
  induction items with
  | nil => intro res k _; rfl
  | cons it rest ih =>
    intro res k hk
    simp only [List.map_cons, List.mem_cons] at hk
    push_neg at hk
    rw [buildResults, List.foldl_cons]
    have step : lookupId (buildResults rest (setKey res it.id it.effect)) k =
        lookupId (setKey res it.id it.effect) k := ih _ k hk.2
    rw [show rest.foldl (fun m x => setKey m x.id x.effect)
          (setKey res it.id it.effect) =
          buildResults rest (setKey res it.id it.effect) from rfl, step]
    unfold setKey
    by_cases hb : res.any (fun p => decide (p.1 = it.id))
    · rw [if_pos hb]
      clear step hb
      induction res with
      | nil => rfl
      | cons q rq ihq =>
        by_cases hq : q.1 = k
        · have hki : ¬ k = it.id := hk.1
          simp [lookupId, hq, hki]
        · by_cases hqi : q.1 = it.id
          · simp only [List.map_cons, lookupId, hqi, if_true, ite_true]
            have : ¬ it.id = k := fun he => hk.1 he.symm
            simp only [lookupId, this, if_false, ite_false]
            simpa [lookupId, hq] using ihq
          · simp only [List.map_cons, lookupId, hqi, if_false, ite_false]
            simpa [lookupId, hq] using ihq
    · rw [if_neg hb]
      exact lookupId_append_other res it.id k it.effect hk.1

theorem buildResults_lookup_mem (items : List (Item α)) :
    ∀ (res : ResultMap α), (items.map (fun x => x.id)).Nodup →
      (∀ j ∈ items, ∀ q ∈ res, q.1 ≠ j.id) →
      ∀ it ∈ items, lookupId (buildResults items res) it.id = some it.effect := by
  induction items with
  | nil => intro res _ _ it hit; exact absurd hit (List.not_mem_nil it)
  | cons j rest ih =>
    intro res hnd hfr it hit
    have hnd' := hnd
    rw [List.map_cons, List.nodup_cons] at hnd'
    have hres : setKey res j.id j.effect = res ++ [(j.id, j.effect)] :=
      setKey_fresh res j.id j.effect
        (fun q hq => hfr j (List.mem_cons_self j rest) q hq)
    rw [buildResults, List.foldl_cons,
      show rest.foldl (fun m x => setKey m x.id x.effect)
        (setKey res j.id j.effect) =
        buildResults rest (setKey res j.id j.effect) from rfl]
    rcases List.mem_cons.mp hit with he | hm
    · subst he
      rw [buildResults_lookup_out rest _ it.id hnd'.1, hres]
      exact lookupId_append_self res it.id it.effect
        (fun q hq => hfr it (List.mem_cons_self it rest) q hq)
    · refine ih _ hnd'.2 ?_ it hm
      intro j' hj' q hq
      rw [hres] at hq
      rcases List.mem_append.mp hq with hq | hq
      · exact hfr j' (List.mem_cons_of_mem j hj') q hq
      · rcases List.mem_singleton.mp hq with rfl
        intro he
        apply hnd'.1
        rw [show j.id = j'.id from he]
        exact List.mem_map.mpr ⟨j', hj', rfl⟩

theorem buildResults_keys (items : List (Item α)) :
    ∀ (res : ResultMap α), (items.map (fun x => x.id)).Nodup →
      (∀ j ∈ items, ∀ q ∈ res, q.1 ≠ j.id) →
      (buildResults items res).map Prod.fst =
        res.map Prod.fst ++ items.map (fun x => x.id) := by
  induction items with
  | nil => intro res _ _; simp [buildResults]
  | cons j rest ih =>
    intro res hnd hfr
    have hnd' := hnd
    rw [List.map_cons, List.nodup_cons] at hnd'
    have hres : setKey res j.id j.effect = res ++ [(j.id, j.effect)] :=
      setKey_fresh res j.id j.effect
        (fun q hq => hfr j (List.mem_cons_self j rest) q hq)
    rw [buildResults, List.foldl_cons,
      show rest.foldl (fun m x => setKey m x.id x.effect)
        (setKey res j.id j.effect) =
        buildResults rest (setKey res j.id j.effect) from rfl]
    rw [ih _ hnd'.2]
    · rw [hres]
      simp
    · intro j' hj' q hq
      rw [hres] at hq
      rcases List.mem_append.mp hq with hq | hq
      · exact hfr j' (List.mem_cons_of_mem j hj') q hq
      · rcases List.mem_singleton.mp hq with rfl
        intro he
        apply hnd'.1
        rw [show j.id = j'.id from he]
        exact List.mem_map.mpr ⟨j', hj', rfl⟩

/-! Helper lemmas about command batches and traces. -/

theorem applyCmd_isPerforming (s : OState α) (c : Cmd α) :
    (applyCmd s c).1.isPerforming = s.isPerforming := by
  cases c with
  | reg it => rfl
  | cancel i => rfl
  | exec r =>
    simp only [applyCmd]
    split <;> rfl

theorem applyCmds_isPerforming (cs : List (Cmd α)) :
    ∀ s : OState α, (applyCmds s cs).1.isPerforming = s.isPerforming := by
  induction cs with
  | nil => intro s; rfl
  | cons c cs ih =>
    intro s
    simp only [applyCmds]
    rw [ih, applyCmd_isPerforming]

theorem stepPoint_isPerforming (s : OState α) (sched : Sched α) :
    (stepPoint s sched).state.isPerforming = s.isPerforming :=
  applyCmds_isPerforming _ _

theorem preStep_isPerforming (s : OState α) (it : Item α) (sched : Sched α) :
    (preStep s it sched).state.isPerforming = s.isPerforming := by
  unfold preStep
  split
  · exact stepPoint_isPerforming s sched
  · rfl

theorem effectStep_isPerforming (s : OState α) (it : Item α) (sched : Sched α) :
    (effectStep s it sched).state.isPerforming = s.isPerforming :=
  stepPoint_isPerforming s sched

theorem postStep_isPerforming (s : OState α) (it : Item α) (sched : Sched α) :
    (postStep s it sched).state.isPerforming = s.isPerforming := by
  unfold postStep
  split
  · exact stepPoint_isPerforming s sched
  · rfl

theorem runItems_isPerforming (items : List (Item α)) :
    ∀ (s : OState α) (res : ResultMap α) (sched : Sched α),
      (runItems s items res sched).state.isPerforming = s.isPerforming := by
  induction items with
  | nil => intro s res sched; rfl
  | cons it rest ih =>
    intro s res sched
    simp only [runItems]
    rw [ih, postStep_isPerforming, effectStep_isPerforming, preStep_isPerforming]

theorem applyCmd_trace_deferred (s : OState α) (c : Cmd α) :
    ∀ e ∈ (applyCmd s c).2, isDeferredEv e = true := by
  cases c with
  | reg it => intro e he; exact absurd he (List.not_mem_nil e)
  | cancel i => intro e he; exact absurd he (List.not_mem_nil e)
  | exec r =>
    intro e he
    simp only [applyCmd] at he
    by_cases h : s.isPerforming = true
    · rw [if_pos h] at he
      rcases List.mem_singleton.mp he with rfl
      rfl
    · rw [if_neg h] at he
      exact absurd he (List.not_mem_nil e)

theorem applyCmds_trace_deferred (cs : List (Cmd α)) :
    ∀ (s : OState α), ∀ e ∈ (applyCmds s cs).2, isDeferredEv e = true := by
  induction cs with
  | nil => intro s e he; exact absurd he (List.not_mem_nil e)
  | cons c cs ih =>
    intro s e he
    simp only [applyCmds] at he
    rcases List.mem_append.mp he with he | he
    · exact applyCmd_trace_deferred s c e he
    · exact ih _ e he

theorem stepPoint_trace_deferred (s : OState α) (sched : Sched α) :
    ∀ e ∈ (stepPoint s sched).trace, isDeferredEv e = true := by
  intro e he
  exact applyCmds_trace_deferred _ _ e he

theorem filter_of_deferred (t : List (Ev α))
    (h : ∀ e ∈ t, isDeferredEv e = true) :
    t.filter (fun e => !isDeferredEv e) = [] := by
  rw [List.filter_eq_nil_iff]
  intro e he
  simp [h e he]

theorem invokedIds_of_deferred (t : List (Ev α))
    (h : ∀ e ∈ t, isDeferredEv e = true) : invokedIds t = [] := by
  induction t with
  | nil => rfl
  | cons e es ih =>
    have hd := h e (List.mem_cons_self e es)
    have ht := ih (fun e' he' => h e' (List.mem_cons_of_mem e he'))
    cases e with
    | deferred r => simpa [invokedIds] using ht
    | passStart l => simp [isDeferredEv] at hd
    | passEnd => simp [isDeferredEv] at hd
    | invoke i => simp [isDeferredEv] at hd
    | wait n => simp [isDeferredEv] at hd
    | resolved r m => simp [isDeferredEv] at hd

theorem traceRun_of_deferred (t : List (Ev α)) :
    ∀ b : Bool, (∀ e ∈ t, isDeferredEv e = true) → traceRun b t = some b := by
  induction t with
  | nil => intro b _; rfl
  | cons e es ih =>
    intro b h
    have hd := h e (List.mem_cons_self e es)
    cases e with
    | deferred r =>
      simp only [traceRun, evStep]
      exact ih b (fun e' he' => h e' (List.mem_cons_of_mem _ he'))
    | passStart l => simp [isDeferredEv] at hd
    | passEnd => simp [isDeferredEv] at hd
    | invoke i => simp [isDeferredEv] at hd
    | wait n => simp [isDeferredEv] at hd
    | resolved r m => simp [isDeferredEv] at hd

theorem traceRun_append (t1 : List (Ev α)) :
    ∀ (b : Bool) (t2 : List (Ev α)),
      traceRun b (t1 ++ t2) = (traceRun b t1).bind (fun c => traceRun c t2) := by
  induction t1 with
  | nil => intro b t2; rfl
  | cons e es ih =>
    intro b t2
    simp only [List.cons_append, traceRun]
    cases h : evStep b e with
    | none => rfl
    | some c => exact ih c t2

theorem invokedIds_append (t1 t2 : List (Ev α)) :
    invokedIds (t1 ++ t2) = invokedIds t1 ++ invokedIds t2 :=
  List.filterMap_append t1 t2 _

theorem invoke_mem_of_invokedIds (t : List (Ev α)) (i : String)
    (h : i ∈ invokedIds t) : Ev.invoke i ∈ t := by
  unfold invokedIds at h
  rcases List.mem_filterMap.mp h with ⟨e, he, hfe⟩
  cases e <;> simp_all

/-! Helper lemmas about the trace of the item loop. -/

theorem isDeferredEv_wait (n : Nat) : isDeferredEv (Ev.wait n : Ev α) = false := rfl

theorem isDeferredEv_invoke (i : String) :
    isDeferredEv (Ev.invoke i : Ev α) = false := rfl

theorem preStep_trace_filter (s : OState α) (it : Item α) (sched : Sched α) :
    (preStep s it sched).trace.filter (fun e => !isDeferredEv e) =
      (if 0 < it.preDelay then [Ev.wait it.preDelay] else []) := by
  unfold preStep
  have hz : (stepPoint s sched).trace.filter (fun e => !isDeferredEv e) = [] :=
    filter_of_deferred _ (stepPoint_trace_deferred s sched)
  by_cases h : it.preDelay = 0
  · simp [h]
  · have hp : 0 < it.preDelay := Nat.pos_of_ne_zero h
    simp [h, hp, List.filter_cons, isDeferredEv_wait, hz]

theorem effectStep_trace_filter (s : OState α) (it : Item α) (sched : Sched α) :
    (effectStep s it sched).trace.filter (fun e => !isDeferredEv e) =
      [Ev.invoke it.id] := by
  unfold effectStep
  have hz : (stepPoint s sched).trace.filter (fun e => !isDeferredEv e) = [] :=
    filter_of_deferred _ (stepPoint_trace_deferred s sched)
  simp [List.filter_cons, isDeferredEv_invoke, hz]

theorem postStep_trace_filter (s : OState α) (it : Item α) (sched : Sched α) :
    (postStep s it sched).trace.filter (fun e => !isDeferredEv e) =
      (if 0 < it.postDelay then [Ev.wait it.postDelay] else []) := by
  unfold postStep
  have hz : (stepPoint s sched).trace.filter (fun e => !isDeferredEv e) = [] :=
    filter_of_deferred _ (stepPoint_trace_deferred s sched)
  by_cases h : it.postDelay = 0
  · simp [h]
  · have hp : 0 < it.postDelay := Nat.pos_of_ne_zero h
    simp [h, hp, List.filter_cons, isDeferredEv_wait, hz]

theorem runItems_trace_spec (items : List (Item α)) :
    ∀ (s : OState α) (res : ResultMap α) (sched : Sched α),
      ((runItems s items res sched).trace).filter (fun e => !isDeferredEv e) =
        passTraceSpec items := by
  induction items with
  | nil => intro s res sched; rfl
  | cons it rest ih =>
    intro s res sched
    simp only [runItems, passTraceSpec, itemTraceSpec]
    rw [List.filter_append, List.filter_append, List.filter_append,
      preStep_trace_filter, effectStep_trace_filter, postStep_trace_filter, ih]

theorem invokedIds_preStep (s : OState α) (it : Item α) (sched : Sched α) :
    invokedIds (preStep s it sched).trace = [] := by
  unfold preStep
  have hz : invokedIds (stepPoint s sched).trace = [] :=
    invokedIds_of_deferred _ (stepPoint_trace_deferred s sched)
  by_cases h : it.preDelay = 0
  · simp [h, invokedIds]
  · unfold invokedIds at hz ⊢
    simp [h, List.filterMap_cons, hz]

theorem invokedIds_postStep (s : OState α) (it : Item α) (sched : Sched α) :
    invokedIds (postStep s it sched).trace = [] := by
  unfold postStep
  have hz : invokedIds (stepPoint s sched).trace = [] :=
    invokedIds_of_deferred _ (stepPoint_trace_deferred s sched)
  by_cases h : it.postDelay = 0
  · simp [h, invokedIds]
  · unfold invokedIds at hz ⊢
    simp [h, List.filterMap_cons, hz]

theorem invokedIds_effectStep (s : OState α) (it : Item α) (sched : Sched α) :
    invokedIds (effectStep s it sched).trace = [it.id] := by
  unfold effectStep
  have hz : invokedIds (stepPoint s sched).trace = [] :=
    invokedIds_of_deferred _ (stepPoint_trace_deferred s sched)
  unfold invokedIds at hz ⊢
  simp [List.filterMap_cons, hz]

theorem invokedIds_runItems (items : List (Item α)) :
    ∀ (s : OState α) (res : ResultMap α) (sched : Sched α),
      invokedIds (runItems s items res sched).trace =
        items.map (fun x => x.id) := by
  induction items with
  | nil => intro s res sched; rfl
  | cons it rest ih =>
    intro s res sched
    simp only [runItems]
    rw [invokedIds_append, invokedIds_append, invokedIds_append,
      invokedIds_preStep, invokedIds_effectStep, invokedIds_postStep, ih]
    simp

theorem traceRun_preStep (s : OState α) (it : Item α) (sched : Sched α) :
    traceRun true (preStep s it sched).trace = some true := by
  unfold preStep
  have hz : traceRun true (stepPoint s sched).trace = some true :=
    traceRun_of_deferred _ true (stepPoint_trace_deferred s sched)
  by_cases h : it.preDelay = 0
  · simp [h, traceRun]
  · simp [h, traceRun, evStep, hz]

theorem traceRun_effectStep (s : OState α) (it : Item α) (sched : Sched α) :
    traceRun true (effectStep s it sched).trace = some true := by
  unfold effectStep
  have hz : traceRun true (stepPoint s sched).trace = some true :=
    traceRun_of_deferred _ true (stepPoint_trace_deferred s sched)
  simp [traceRun, evStep, hz]

theorem traceRun_postStep (s : OState α) (it : Item α) (sched : Sched α) :
    traceRun true (postStep s it sched).trace = some true := by
  unfold postStep
  have hz : traceRun true (stepPoint s sched).trace = some true :=
    traceRun_of_deferred _ true (stepPoint_trace_deferred s sched)
  by_cases h : it.postDelay = 0
  · simp [h, traceRun]
  · simp [h, traceRun, evStep, hz]

theorem traceRun_runItems (items : List (Item α)) :
    ∀ (s : OState α) (res : ResultMap α) (sched : Sched α),
      traceRun true (runItems s items res sched).trace = some true := by
  induction items with
  | nil => intro s res sched; rfl
  | cons it rest ih =>
    intro s res sched
    simp only [runItems]
    simp [traceRun_append, traceRun_preStep, traceRun_effectStep,
      traceRun_postStep, ih]

/-! Helper lemmas about `doExec`. -/

theorem doExec_store_nil (fuel : Nat) (s : OState α) (r : Nat) (sched : Sched α)
    (h : s.store = []) : (doExec fuel s r sched).state.store = [] := by
  cases fuel with
  | zero => exact h
  | succ fuel =>
    simp only [doExec]
    by_cases hb : s.isPerforming = true
    · simp [hb, h]
    · simp [hb, h]

theorem doExec_final_store (fuel : Nat) (s : OState α) (r : Nat) (sched : Sched α)
    (h : s.isPerforming = false) :
    (doExec (fuel + 1) s r sched).state.store = [] := by
  simp only [doExec, h, Bool.false_eq_true, if_false, ite_false]
  by_cases he : s.store.isEmpty
  · simp only [he, if_true, ite_true]
    exact List.isEmpty_iff.mp he
  · simp only [he, if_false, ite_false, Bool.false_eq_true]
    cases hq : (runItems { s with isPerforming := true }
        (sortByPriorityDesc s.store) [] sched).state.executionQueue with
    | nil => simp [hq]
    | cons q qs =>
      simp only [hq]
      exact doExec_store_nil fuel _ q _ rfl

theorem doExec_isPerforming (fuel : Nat) :
    ∀ (s : OState α) (r : Nat) (sched : Sched α), s.isPerforming = false →
      (doExec fuel s r sched).state.isPerforming = false := by
  induction fuel with
  | zero => intro s r sched h; exact h
  | succ fuel ih =>
    intro s r sched h
    simp only [doExec, h, Bool.false_eq_true, if_false, ite_false]
    by_cases he : s.store.isEmpty
    · simp [he, h]
    · simp only [he, if_false, ite_false, Bool.false_eq_true]
      cases hq : (runItems { s with isPerforming := true }
          (sortByPriorityDesc s.store) [] sched).state.executionQueue with
      | nil => simp [hq]
      | cons q qs =>
        simp only [hq]
        exact ih _ q _ rfl

theorem doExec_traceRun (fuel : Nat) :
    ∀ (s : OState α) (r : Nat) (sched : Sched α), s.isPerforming = false →
      traceRun false (doExec fuel s r sched).trace = some false := by
  induction fuel with
  | zero => intro s r sched h; rfl
  | succ fuel ih =>
    intro s r sched h
    simp only [doExec, h, Bool.false_eq_true, if_false, ite_false]
    by_cases he : s.store.isEmpty
    · simp [he, traceRun, evStep]
    · simp only [he, if_false, ite_false, Bool.false_eq_true]
      cases hq : (runItems { s with isPerforming := true }
          (sortByPriorityDesc s.store) [] sched).state.executionQueue with
      | nil =>
        simp [hq, traceRun, evStep, traceRun_append, traceRun_runItems]
      | cons q qs =>
        have hn : ∀ sch2 : Sched α,
            traceRun false (doExec fuel (⟨[], false, qs⟩ : OState α) q sch2).trace
              = some false := fun sch2 => ih _ q sch2 rfl
        cases hr : (doExec fuel (⟨[], false, qs⟩ : OState α) q
            (runItems { s with isPerforming := true }
              (sortByPriorityDesc s.store) [] sched).sched).ret with
        | none =>
          simp [hq, hr, traceRun, evStep, traceRun_append, traceRun_runItems, hn]
        | some m =>
          simp [hq, hr, traceRun, evStep, traceRun_append, traceRun_runItems, hn]

theorem runScenario_traceRun (cmds : List (Cmd α)) :
    ∀ (fuel : Nat) (sched : Sched α) (s : OState α), s.isPerforming = false →
      traceRun false (runScenario fuel cmds sched s).2 = some false := by
  induction cmds with
  | nil => intro fuel sched s _; rfl
  | cons c cs ih =>
    intro fuel sched s h
    cases c with
    | reg it => exact ih fuel sched _ h
    | cancel i => exact ih fuel sched _ h
    | exec r =>
      simp only [runScenario]
      rw [traceRun_append, doExec_traceRun fuel s r sched h]
      exact ih fuel _ _ (doExec_isPerforming fuel s r sched h)

theorem doExec_ret_isSome (fuel : Nat) (s : OState α) (r : Nat) (sched : Sched α)
    (h : s.isPerforming = false) :
    ((doExec (fuel + 2) s r sched).ret).isSome = true := by
  rw [show fuel + 2 = (fuel + 1) + 1 from rfl]
  simp only [doExec, h, Bool.false_eq_true, if_false, ite_false]
  by_cases he : s.store.isEmpty
  · simp [he]
  · simp only [he, if_false, ite_false, Bool.false_eq_true]
    cases hq : (runItems { s with isPerforming := true }
        (sortByPriorityDesc s.store) [] sched).state.executionQueue with
    | nil => simp [hq]
    | cons q qs =>
      simp only [hq]
      simp [doExec]

theorem invokedIds_nil_trace : invokedIds ([] : List (Ev α)) = [] := rfl

theorem invokedIds_passStart (l : List (Item α)) (t : List (Ev α)) :
    invokedIds (Ev.passStart l :: t) = invokedIds t := rfl

theorem invokedIds_passEnd (t : List (Ev α)) :
    invokedIds (Ev.passEnd :: t) = invokedIds t := rfl

theorem invokedIds_resolved (r : Nat) (m : ResultMap α) (t : List (Ev α)) :
    invokedIds (Ev.resolved r m :: t) = invokedIds t := rfl

theorem invokedIds_deferredEv (r : Nat) (t : List (Ev α)) :
    invokedIds (Ev.deferred r :: t) = invokedIds t := rfl

theorem invokedIds_doExec_nil_store (fuel : Nat) (s : OState α) (r : Nat)
    (sched : Sched α) (h : s.store = []) :
    invokedIds (doExec fuel s r sched).trace = [] := by
  cases fuel with
  | zero => rfl
  | succ fuel =>
    simp only [doExec]
    by_cases hb : s.isPerforming = true
    · rw [if_pos hb]
      rfl
    · rw [if_neg hb]
      have he : s.store.isEmpty = true := by simp [h]
      simp only [he, if_true, ite_true]
      rfl

theorem invokedIds_doExec_run (fuel : Nat) (s : OState α) (r : Nat)
    (sched : Sched α) (h : s.isPerforming = false) :
    invokedIds (doExec (fuel + 1) s r sched).trace =
      (sortByPriorityDesc s.store).map (fun x => x.id) := by
  simp only [doExec, h, Bool.false_eq_true, if_false, ite_false]
  by_cases he : s.store.isEmpty
  · have h0 : s.store = [] := List.isEmpty_iff.mp he
    simp only [he, if_true, ite_true, h0, sortByPriorityDesc, List.map_nil]
    rfl
  · simp only [he, if_false, ite_false, Bool.false_eq_true]
    cases hq : (runItems { s with isPerforming := true }
        (sortByPriorityDesc s.store) [] sched).state.executionQueue with
    | nil =>
      simp only [hq]
      simp [invokedIds_append, invokedIds_passStart, invokedIds_passEnd,
        invokedIds_resolved, invokedIds_nil_trace, invokedIds_runItems]
    | cons q qs =>
      simp only [hq]
      have hnest : invokedIds (doExec fuel (⟨[], false, qs⟩ : OState α) q
          (runItems { s with isPerforming := true }
            (sortByPriorityDesc s.store) [] sched).sched).trace = [] :=
        invokedIds_doExec_nil_store fuel _ q _ rfl
      cases hr : (doExec fuel (⟨[], false, qs⟩ : OState α) q
          (runItems { s with isPerforming := true }
            (sortByPriorityDesc s.store) [] sched).sched).ret with
      | none =>
        simp [hr, invokedIds_append, invokedIds_passStart, invokedIds_passEnd,
          invokedIds_resolved, invokedIds_nil_trace, invokedIds_runItems, hnest]
      | some m =>
        simp [hr, invokedIds_append, invokedIds_passStart, invokedIds_passEnd,
          invokedIds_resolved, invokedIds_nil_trace, invokedIds_runItems, hnest]

/-! Claim theorems. -/

/-- C1 (corrected): when `execute()` admits a pass, the original requester is
resolved with the pass's own ResultMap only if no deferred continuation is
pending at pass completion; if one or more `execute()` calls were deferred
during the pass, `return nextExecution()` (source line 188) resolves the
original requester with the drained continuation's re-issued call's result
instead, and that result is the empty map because the store was just
cleared. -/
theorem execute_result_resolution (α : Type) (fuel : Nat) (s : OState α)
    (r : Nat) (sched : Sched α) (hb : s.isPerforming = false)
    (hne : s.store.isEmpty = false) :
    ((runItems { s with isPerforming := true } (sortByPriorityDesc s.store) []
        sched).state.executionQueue = [] →
      (doExec (fuel + 2) s r sched).ret =
        some (runItems { s with isPerforming := true }
          (sortByPriorityDesc s.store) [] sched).results) ∧
    (∀ q qs, (runItems { s with isPerforming := true }
        (sortByPriorityDesc s.store) [] sched).state.executionQueue = q :: qs →
      (doExec (fuel + 2) s r sched).ret = some []) := by
  constructor
  · intro hq
    rw [show fuel + 2 = (fuel + 1) + 1 from rfl]
    simp only [doExec, hb, Bool.false_eq_true, if_false, ite_false, hne]
    simp [hq]
  · intro q qs hq
    rw [show fuel + 2 = (fuel + 1) + 1 from rfl]
    simp only [doExec, hb, Bool.false_eq_true, if_false, ite_false, hne]
    simp only [hq]
    simp [doExec]

theorem execute_result_resolution_witness :
    (doExec 2 (⟨[itemX], false, []⟩ : OState Nat) 0 []).ret =
      some [("x", RVal.ok 7)] :=
  (execute_result_resolution Nat 0 ⟨[itemX], false, []⟩ 0 [] rfl rfl).1 rfl

/-- C1 counterexample: requester 0 admits a pass over item `x`; requester 1
calls `execute()` during the pass and is deferred; at completion requester 0
resolves with the empty map, not with its own pass's ResultMap (which the
contrast run without the concurrent caller does deliver). -/
theorem drained_pass_loses_own_results :
    Ev.resolved 0 [] ∈
      (runScenario 4 [Cmd.reg itemX, Cmd.exec 0] [[Cmd.exec 1]]
        (initState : OState Nat)).2 ∧
    Ev.resolved 0 [("x", RVal.ok 7)] ∉
      (runScenario 4 [Cmd.reg itemX, Cmd.exec 0] [[Cmd.exec 1]]
        (initState : OState Nat)).2 ∧
    Ev.resolved 0 [("x", RVal.ok 7)] ∈
      (runScenario 4 [Cmd.reg itemX, Cmd.exec 0] []
        (initState : OState Nat)).2 :=
  ⟨by decide, by decide, by decide⟩

/-- C2 is violated by the code: item `x` is registered and requester 0
executes; requesters 1 and 2 call `execute()` during the pass; at pass
completion the single drained continuation re-issues `execute()` on the
now-empty store, which returns at the empty-queue early exit (source lines
131-134) without draining anything, so requester 2 is never resolved and
stays in the deferred list although the session is idle. -/
theorem second_deferred_request_never_resolves :
    (runScenario 4 [Cmd.reg itemX, Cmd.exec 0] [[Cmd.exec 1, Cmd.exec 2]]
      (initState : OState Nat)).1.executionQueue = [2] ∧
    (runScenario 4 [Cmd.reg itemX, Cmd.exec 0] [[Cmd.exec 1, Cmd.exec 2]]
      (initState : OState Nat)).1.isPerforming = false ∧
    resolvedReqs (runScenario 4 [Cmd.reg itemX, Cmd.exec 0]
      [[Cmd.exec 1, Cmd.exec 2]] (initState : OState Nat)).2 = [1, 0] ∧
    Ev.deferred 2 ∈ (runScenario 4 [Cmd.reg itemX, Cmd.exec 0]
      [[Cmd.exec 1, Cmd.exec 2]] (initState : OState Nat)).2 :=
  ⟨by decide, by decide, by decide, by decide⟩

/-- C3: a pass runs the snapshot sorted descending by priority and stably:
the run order is pairwise non-increasing in priority, a permutation of the
store, preserves each priority class's registration order, and both the item
loop and a full admitted `execute()` call invoke exactly that order;
concretely, registering a (priority 1), b (priority 3), c (priority 2) and
executing invokes b, c, a. -/
theorem run_order_priority_stable :
    (∀ (α : Type) (l : List (Item α)),
        (sortByPriorityDesc l).Pairwise (fun a b => b.priority ≤ a.priority)) ∧
    (∀ (α : Type) (l : List (Item α)), (sortByPriorityDesc l).Perm l) ∧
    (∀ (α : Type) (l : List (Item α)) (p : Int),
        (sortByPriorityDesc l).filter (fun z => decide (z.priority = p)) =
          l.filter (fun z => decide (z.priority = p))) ∧
    (∀ (α : Type) (s : OState α) (items : List (Item α)) (res : ResultMap α)
        (sched : Sched α),
        invokedIds (runItems s items res sched).trace =
          items.map (fun x => x.id)) ∧
    (∀ (α : Type) (fuel : Nat) (s : OState α) (r : Nat) (sched : Sched α),
        s.isPerforming = false →
        invokedIds (doExec (fuel + 1) s r sched).trace =
          (sortByPriorityDesc s.store).map (fun x => x.id)) ∧
    invokedIds (runScenario 2 [Cmd.reg itemA1, Cmd.reg itemB3, Cmd.reg itemC2,
      Cmd.exec 0] [] (initState : OState Nat)).2 = ["b", "c", "a"] :=
  ⟨fun _ l => sortByPriorityDesc_sorted l,
   fun _ l => sortByPriorityDesc_perm l,
   fun _ l p => sortByPriorityDesc_filter p l,
   fun _ s items res sched => invokedIds_runItems items s res sched,
   fun _ fuel s r sched h => invokedIds_doExec_run fuel s r sched h,
   by decide⟩

theorem run_order_priority_stable_witness :
    invokedIds (doExec 1 (⟨[itemA1, itemB3, itemC2], false, []⟩ : OState Nat)
      0 []).trace = ["b", "c", "a"] :=
  (run_order_priority_stable.2.2.2.2.1 Nat 0 ⟨[itemA1, itemB3, itemC2], false, []⟩
    0 [] rfl).trans (by decide)

/-- C4: per-item failures are isolated: every item of a pass with distinct
ids gets exactly its own effect's outcome recorded under its id (a rejection
message becomes an error entry, source lines 156-170), every item of the
pass is invoked regardless of its siblings' failures, and an admitted
`execute()` call always returns a ResultMap rather than rejecting. -/
theorem per_item_failure_isolated :
    (∀ (α : Type) (s : OState α) (items : List (Item α)) (sched : Sched α)
        (it : Item α), (items.map (fun x => x.id)).Nodup → it ∈ items →
        lookupId (runItems s items [] sched).results it.id = some it.effect) ∧
    (∀ (α : Type) (s : OState α) (items : List (Item α)) (res : ResultMap α)
        (sched : Sched α) (it : Item α), it ∈ items →
        Ev.invoke it.id ∈ (runItems s items res sched).trace) ∧
    (∀ (α : Type) (fuel : Nat) (s : OState α) (r : Nat) (sched : Sched α),
        s.isPerforming = false →
        ((doExec (fuel + 2) s r sched).ret).isSome = true) := by
  refine ⟨?_, ?_, ?_⟩
  · intro α s items sched it hnd hmem
    rw [runItems_results]
    exact buildResults_lookup_mem items [] hnd
      (fun j _ q hq => absurd hq (List.not_mem_nil q)) it hmem
  · intro α s items res sched it hmem
    apply invoke_mem_of_invokedIds
    rw [invokedIds_runItems]
    exact List.mem_map.mpr ⟨it, hmem, rfl⟩
  · intro α fuel s r sched h
    exact doExec_ret_isSome fuel s r sched h

theorem per_item_failure_isolated_witness :
    lookupId (runItems (initState : OState Nat) [itemE, itemO] [] []).results
      "e" = some (RVal.err "boom") ∧
    Ev.invoke "o" ∈ (runItems (initState : OState Nat) [itemE, itemO] [] []).trace ∧
    ((doExec 2 (⟨[itemX], false, []⟩ : OState Nat) 0 []).ret).isSome = true :=
  ⟨per_item_failure_isolated.1 Nat initState [itemE, itemO] [] itemE
      (by decide) (by decide),
   per_item_failure_isolated.2.1 Nat initState [itemE, itemO] [] [] itemO
      (by decide),
   per_item_failure_isolated.2.2 Nat 0 ⟨[itemX], false, []⟩ 0 [] rfl⟩

/-- C5: an `execute()` call arriving while a pass runs only appends its
continuation to the deferred list, leaving the store and busy flag untouched
and producing no pass; every session trace is well nested (no pass starts
inside a pass, effects are invoked only inside a pass, promises resolve only
between passes), so at most one pass executes at any instant; and every
admitted `execute()` call leaves the store empty, so a later pass sees only
items registered after the preceding clear. -/
theorem pass_mutual_exclusion :
    (∀ (α : Type) (s : OState α) (r : Nat), s.isPerforming = true →
        applyCmd s (Cmd.exec r) =
          ({ s with executionQueue := s.executionQueue ++ [r] },
            [Ev.deferred r])) ∧
    (∀ (α : Type) (fuel : Nat) (cmds : List (Cmd α)) (sched : Sched α),
        traceRun false (runScenario fuel cmds sched (initState : OState α)).2 =
          some false) ∧
    (∀ (α : Type) (fuel : Nat) (s : OState α) (r : Nat) (sched : Sched α),
        s.isPerforming = false →
        (doExec (fuel + 1) s r sched).state.store = []) := by
  refine ⟨?_, ?_, ?_⟩
  · intro α s r h
    simp [applyCmd, h]
  · intro α fuel cmds sched
    exact runScenario_traceRun cmds fuel sched initState rfl
  · intro α fuel s r sched h
    exact doExec_final_store fuel s r sched h

theorem pass_mutual_exclusion_witness :
    applyCmd (⟨[], true, []⟩ : OState Nat) (Cmd.exec 5) =
      (⟨[], true, [5]⟩, [Ev.deferred 5]) ∧
    traceRun false (runScenario 2 [Cmd.exec 0] [] (initState : OState Nat)).2 =
      some false ∧
    (doExec 1 (⟨[itemX], false, []⟩ : OState Nat) 0 []).state.store = [] :=
  ⟨pass_mutual_exclusion.1 Nat ⟨[], true, []⟩ 5 rfl,
   pass_mutual_exclusion.2.1 Nat 2 [Cmd.exec 0] [],
   pass_mutual_exclusion.2.2 Nat 0 ⟨[itemX], false, []⟩ 0 [] rfl⟩

/-- C6: the store never holds two items with the same id: the invariant is
preserved by registration and by cancellation, and registering an existing id
removes the prior item and appends the new one (last registration wins);
concretely, registering x with priority 1 then x with priority 5 leaves
exactly the priority-5 item, a pass invokes x once and returns exactly one
entry for x carrying the second registration's result. -/
theorem store_unique_ids_last_wins :
    (∀ (α : Type) (s : List (Item α)) (it : Item α), UniqueIds s →
        UniqueIds (orchestrateStore s it)) ∧
    (∀ (α : Type) (s : List (Item α)) (i : String), UniqueIds s →
        UniqueIds (cancelStore s i)) ∧
    (∀ (α : Type) (s : List (Item α)) (it : Item α), UniqueIds s →
        (orchestrateStore s it).filter (fun y => decide (y.id = it.id)) = [it]) ∧
    orchestrateStore (orchestrateStore ([] : List (Item Nat)) itemXP1) itemXP5 =
      [itemXP5] ∧
    invokedIds (runScenario 2 [Cmd.reg itemXP1, Cmd.reg itemXP5, Cmd.exec 0]
      [] (initState : OState Nat)).2 = ["x"] ∧
    Ev.resolved 0 [("x", RVal.ok 5)] ∈
      (runScenario 2 [Cmd.reg itemXP1, Cmd.reg itemXP5, Cmd.exec 0] []
        (initState : OState Nat)).2 :=
  ⟨fun _ s it h => uniqueIds_orchestrateStore s it h,
   fun _ s i h => uniqueIds_cancelStore s i h,
   fun _ s it h => filter_orchestrateStore_id s it h,
   by decide, by decide, by decide⟩

theorem store_unique_ids_last_wins_witness :
    UniqueIds (orchestrateStore [itemXP1] itemXP5) ∧
    UniqueIds (cancelStore [itemXP1] "x") ∧
    (orchestrateStore [itemXP1] itemXP5).filter
      (fun y => decide (y.id = itemXP5.id)) = [itemXP5] :=
  ⟨store_unique_ids_last_wins.1 Nat [itemXP1] itemXP5 (by decide),
   store_unique_ids_last_wins.2.1 Nat [itemXP1] "x" (by decide),
   store_unique_ids_last_wins.2.2.1 Nat [itemXP1] itemXP5 (by decide)⟩

/-- C7: the result object of a pass over items with distinct ids has exactly
the run order's ids as keys — one entry per snapshot item, no extras — a
permutation of the store's ids; and after an admitted `execute()` call the
store is cleared entirely. -/
theorem result_map_complete_store_cleared :
    (∀ (α : Type) (s : OState α) (items : List (Item α)) (sched : Sched α),
        (items.map (fun x => x.id)).Nodup →
        ((runItems s items [] sched).results).map Prod.fst =
          items.map (fun x => x.id)) ∧
    (∀ (α : Type) (s : OState α) (sched : Sched α), UniqueIds s.store →
        (((runItems { s with isPerforming := true }
            (sortByPriorityDesc s.store) [] sched).results).map Prod.fst).Perm
          (s.store.map (fun x => x.id))) ∧
    (∀ (α : Type) (fuel : Nat) (s : OState α) (r : Nat) (sched : Sched α),
        s.isPerforming = false →
        (doExec (fuel + 1) s r sched).state.store = []) := by
  refine ⟨?_, ?_, ?_⟩
  · intro α s items sched hnd
    rw [runItems_results]
    have hk := buildResults_keys items [] hnd
      (fun j _ q hq => absurd hq (List.not_mem_nil q))
    simpa using hk
  · intro α s sched h
    have hperm := (sortByPriorityDesc_perm s.store).map (fun x => x.id)
    have hnd : ((sortByPriorityDesc s.store).map (fun x => x.id)).Nodup :=
      hperm.nodup_iff.mpr h
    rw [runItems_results]
    have hk := buildResults_keys (sortByPriorityDesc s.store) [] hnd
      (fun j _ q hq => absurd hq (List.not_mem_nil q))
    rw [hk]
    simpa using hperm
  · intro α fuel s r sched h
    exact doExec_final_store fuel s r sched h

theorem result_map_complete_store_cleared_witness :
    ((runItems (initState : OState Nat) [itemE, itemO] [] []).results).map
      Prod.fst = ["e", "o"] ∧
    (((runItems (⟨[itemA1, itemB3], true, []⟩ : OState Nat)
        (sortByPriorityDesc [itemA1, itemB3]) [] []).results).map
      Prod.fst).Perm ([itemA1, itemB3].map (fun x => x.id)) ∧
    (doExec 1 (⟨[itemX], false, []⟩ : OState Nat) 0 []).state.store = [] :=
  ⟨result_map_complete_store_cleared.1 Nat initState [itemE, itemO] []
      (by decide),
   result_map_complete_store_cleared.2.1 Nat ⟨[itemA1, itemB3], false, []⟩ []
      (by decide),
   result_map_complete_store_cleared.2.2 Nat 0 ⟨[itemX], false, []⟩ 0 [] rfl⟩

/-- C8: within a pass items run strictly sequentially with their delays: the
item loop's trace, with the interleaved external command events removed, is
exactly per item in run order a suspension of preDelay when positive, then
the invocation, then a suspension of postDelay when positive, and the next
item's block strictly afterwards. -/
theorem sequential_delays_trace :
    ∀ (α : Type) (s : OState α) (items : List (Item α)) (res : ResultMap α)
      (sched : Sched α),
      ((runItems s items res sched).trace).filter (fun e => !isDeferredEv e) =
        passTraceSpec items :=
  fun _ s items res sched => runItems_trace_spec items s res sched

/-- C9: `execute()` while idle on an empty store returns the empty map at
once: the state (busy flag included) is unchanged, no suspension point is
consumed, and the trace holds only the resolution — no wait or pass
events. -/
theorem empty_store_execute_immediate (α : Type) (fuel : Nat) (s : OState α)
    (r : Nat) (sched : Sched α) (hb : s.isPerforming = false)
    (hs : s.store = []) :
    doExec (fuel + 1) s r sched = ⟨s, sched, [Ev.resolved r []], some []⟩ := by
  simp [doExec, hb, hs]

theorem empty_store_execute_immediate_witness :
    doExec 1 (initState : OState Nat) 0 [] =
      ⟨initState, [], [Ev.resolved 0 []], some []⟩ :=
  empty_store_execute_immediate Nat 0 initState 0 [] rfl rfl

/-- C10: re-registering an existing id moves the item to the end of the
insertion order: any remaining item of the same priority precedes the
re-registered item in the run order; concretely after registering a, x, b
(all priority 1) and re-registering x, the invocation order is a, b, x
rather than a, x, b. -/
theorem reregister_moves_to_end :
    (∀ (α : Type) (s : List (Item α)) (it y : Item α),
        y ∈ deleteById s it.id → y.priority = it.priority →
        [y, it].Sublist (sortByPriorityDesc (orchestrateStore s it))) ∧
    invokedIds (runScenario 2 [Cmd.reg itemTieA, Cmd.reg itemTieX,
      Cmd.reg itemTieB, Cmd.reg itemTieX2, Cmd.exec 0] []
      (initState : OState Nat)).2 = ["a", "b", "x"] := by
  constructor
  · intro α s it y hy hp
    have h1 : (sortByPriorityDesc (orchestrateStore s it)).filter
        (fun z => decide (z.priority = it.priority)) =
        (orchestrateStore s it).filter
          (fun z => decide (z.priority = it.priority)) :=
      sortByPriorityDesc_filter it.priority _
    have h2 : (orchestrateStore s it).filter
        (fun z => decide (z.priority = it.priority)) =
        (deleteById s it.id).filter
          (fun z => decide (z.priority = it.priority)) ++ [it] := by
      unfold orchestrateStore
      rw [List.filter_append]
      simp [List.filter_cons]
    have hy2 : y ∈ (deleteById s it.id).filter
        (fun z => decide (z.priority = it.priority)) :=
      List.mem_filter.mpr ⟨hy, by simp [hp]⟩
    have h3 : [y, it].Sublist ((deleteById s it.id).filter
        (fun z => decide (z.priority = it.priority)) ++ [it]) :=
      (List.singleton_sublist.mpr hy2).append (List.Sublist.refl [it])
    rw [← h2, ← h1] at h3
    exact h3.trans (List.filter_sublist _)
  · decide

theorem reregister_moves_to_end_witness :
    [itemTieA, itemTieX2].Sublist
      (sortByPriorityDesc
        (orchestrateStore [itemTieA, itemTieX, itemTieB] itemTieX2)) :=
  reregister_moves_to_end.1 Nat [itemTieA, itemTieX, itemTieB] itemTieX2
    itemTieA (by decide) (by decide)

end OrchestRate
